import Mathlib

/-!
Shallow embedding of the `scry` log-viewer core: the Log State Engine
(`src/app.rs`, `AppState` with its operations and the filter-token
extractor) and the raw escape-sequence decoder (`src/keyboard.rs`,
`spawn_keyboard_reader`).

Text lines are modelled as character lists; Rust's byte-based `len()`
and the Unicode character classes (`is_alphanumeric`, `is_whitespace`)
are modelled over characters, which agrees with the source on ASCII
input.  The channel, view and classifier fields of `AppState` are not
part of any engine operation and are omitted.
-/

set_option maxHeartbeats 1000000

/-- A text line, as its sequence of characters. -/
abbrev Line := List Char

/-- Rust `line.contains(pat)`: `pat` occurs in `line` as a contiguous substring. -/
def containsSub (line pat : Line) : Bool := decide (pat <:+: line)

/-- Worker for `splitWhitespace`; `acc` is the current in-progress word, reversed. -/
def wordsAux : List Char → List Char → List Line
  | [], acc => if acc = [] then [] else [acc.reverse]
  | c :: cs, acc =>
    if c.isWhitespace then
      if acc = [] then wordsAux cs [] else acc.reverse :: wordsAux cs []
    else wordsAux cs (c :: acc)

/-- Rust `str::split_whitespace`: the maximal whitespace-free words of a line. -/
def splitWhitespace (l : Line) : List Line := wordsAux l []

/-- Strategy 1 of `extract_filter_text` (src/app.rs:171-178): the content strictly
between the first `"` and the next `"`, accepted if non-empty and shorter than 100. -/
def quoteStrategy (line : Line) : Option Line :=
  match line.dropWhile (fun c => c ≠ '"') with
  | [] => none
  | _ :: rest =>
    if rest.any (fun c => c = '"') then
      let value := rest.takeWhile (fun c => c ≠ '"')
      if value ≠ [] ∧ value.length < 100 then some value else none
    else none

/-- Strategy 2 of `extract_filter_text` (src/app.rs:181-188): the whitespace-delimited
token following the first `=`, when the `=` is neither first nor last. -/
def eqStrategy (line : Line) : Option Line :=
  let eqPos := (line.takeWhile (fun c => c ≠ '=')).length
  if eqPos < line.length ∧ 0 < eqPos ∧ eqPos < line.length - 1 then
    let value :=
      ((line.drop (eqPos + 1)).dropWhile (fun c => c.isWhitespace)).takeWhile
        (fun c => !c.isWhitespace)
    if value ≠ [] ∧ value.length < 100 then some value else none
  else none

/-- The characters strategy 3 keeps when cleaning a word. -/
def isWordChar (c : Char) : Bool := c.isAlphanum || c = '_' || c = '-'

/-- Strategy 3 of `extract_filter_text` (src/app.rs:191-205): the first
whitespace-delimited word holding an alphanumeric character and of length at least 2,
cut down to its leading run of alphanumeric, `_` or `-` characters. -/
def wordStrategy (line : Line) : Option Line :=
  let ws := (splitWhitespace line).filter
    (fun w => w.any (fun c => c.isAlphanum) && decide (2 ≤ w.length))
  match ws.head? with
  | some word =>
    let cleaned := word.takeWhile isWordChar
    if 2 ≤ cleaned.length then some cleaned else none
  | none => none

/-- Rust `extract_filter_text` (src/app.rs:169-208): the three strategies in priority
order, first match wins. -/
def extract_filter_text (line : Line) : Option Line :=
  match quoteStrategy line with
  | some v => some v
  | none =>
    match eqStrategy line with
    | some v => some v
    | none => wordStrategy line

/-- The Log State Engine's state: the fields of `AppState` (src/app.rs:4-15) that the
engine operations read or write. -/
structure AppState where
  log_buffer : List Line
  scroll_offset : Nat
  selected_index : Option Nat
  filter_text : Option Line
  filtered_indices : List Nat
deriving Repr, DecidableEq

/-- `AppState::new` (src/app.rs:18-30), engine fields. -/
def scryInit : AppState :=
  { log_buffer := [], scroll_offset := 0, selected_index := none,
    filter_text := none, filtered_indices := [] }

/-- `AppState::add_log` (src/app.rs:32-76): push the line; if the buffer now holds more
than 2000 lines, remove index 0 and renumber `filtered_indices`, `selected_index` and
`scroll_offset`; otherwise, with an active non-empty filter, append the new index to
`filtered_indices` when the new line contains the filter. -/
def AppState.add_log (s : AppState) (line : Line) : AppState :=
  let new_index := s.log_buffer.length
  let buf := s.log_buffer ++ [line]
  if buf.length > 2000 then
    { log_buffer := buf.drop 1,
      scroll_offset := if s.scroll_offset > 0 then s.scroll_offset - 1 else s.scroll_offset,
      selected_index :=
        match s.selected_index with
        | some selected => if selected = 0 then none else some (selected - 1)
        | none => none,
      filter_text := s.filter_text,
      filtered_indices :=
        if s.filtered_indices ≠ [] then
          (s.filtered_indices.filter (fun idx => idx ≠ 0)).map (fun idx => idx - 1)
        else s.filtered_indices }
  else
    { s with
      log_buffer := buf,
      filtered_indices :=
        match s.filter_text with
        | some filter =>
          if filter ≠ [] ∧ containsSub (buf.getD new_index []) filter then
            s.filtered_indices ++ [new_index]
          else s.filtered_indices
        | none => s.filtered_indices }

/-- `AppState::update_filter` (src/app.rs:124-147): with a non-empty filter, rescan the
whole buffer for substring matches and reset the scroll; otherwise clear the matches. -/
def AppState.update_filter (s : AppState) : AppState :=
  match s.filter_text with
  | some filter =>
    if filter = [] then { s with filtered_indices := [] }
    else
      { s with
        filtered_indices :=
          s.log_buffer.enum.filterMap
            (fun p => if containsSub p.2 filter then some p.1 else none),
        scroll_offset := 0 }
  | none => { s with filtered_indices := [] }

/-- `AppState::select_line` (src/app.rs:107-116): in range, set the selection, derive
the filter from the selected line and rescan; out of range, do nothing. -/
def AppState.select_line (s : AppState) (index : Nat) : AppState :=
  if index < s.log_buffer.length then
    let line := s.log_buffer.getD index []
    AppState.update_filter
      { s with selected_index := some index, filter_text := extract_filter_text line }
  else s

/-- `AppState::clear_selection` (src/app.rs:118-122). -/
def AppState.clear_selection (s : AppState) : AppState :=
  { s with selected_index := none, filter_text := none, filtered_indices := [] }

/-- `AppState::scroll_up` (src/app.rs:86-90). -/
def AppState.scroll_up (s : AppState) (amount : Nat) : AppState :=
  if s.scroll_offset > 0 then { s with scroll_offset := s.scroll_offset - amount } else s

/-- `AppState::scroll_down` (src/app.rs:92-97). -/
def AppState.scroll_down (s : AppState) (amount max_lines : Nat) : AppState :=
  let max_scroll := max_lines - 1
  if s.scroll_offset < max_scroll then
    { s with scroll_offset := min (s.scroll_offset + amount) max_scroll }
  else s

/-- `AppState::get_display_count` (src/app.rs:99-105). -/
def AppState.get_display_count (s : AppState) : Nat :=
  if s.filtered_indices ≠ [] then s.filtered_indices.length else s.log_buffer.length

/-- `AppState::get_display_logs` (src/app.rs:149-164). -/
def AppState.get_display_logs (s : AppState) : List (Nat × Line) :=
  if s.filtered_indices ≠ [] then
    s.filtered_indices.map (fun idx => (idx, s.log_buffer.getD idx []))
  else
    s.log_buffer.enum

/-- The spec's description of the match list: the ascending list of all current buffer
indices whose line contains the token as a substring.  Stated from the spec's words, to
compare the code's `filtered_indices` against. -/
def specMatchingIndices (buf : List Line) (t : Line) : List Nat :=
  (List.range buf.length).filter (fun j => containsSub (buf.getD j []) t)

/-- States reachable from the fresh engine by the public operations. -/
inductive Reachable : AppState → Prop
  | init : Reachable scryInit
  | add_log {s} (line : Line) : Reachable s → Reachable (s.add_log line)
  | select_line {s} (i : Nat) : Reachable s → Reachable (s.select_line i)
  | clear_selection {s} : Reachable s → Reachable s.clear_selection
  | scroll_up {s} (a : Nat) : Reachable s → Reachable (s.scroll_up a)
  | scroll_down {s} (a m : Nat) : Reachable s → Reachable (s.scroll_down a m)

/-- The filter bookkeeping that does hold in every reachable state: when no token is
set the match list is empty; when a token is set it is non-empty, the match list is
strictly ascending, and every listed index is in range with its line containing the
token.  (Completeness of the match list is not part of this; see the theorems.) -/
def FilterInv (s : AppState) : Prop :=
  (s.filter_text = none → s.filtered_indices = []) ∧
  ∀ t, s.filter_text = some t →
    t ≠ [] ∧ List.Pairwise (· < ·) s.filtered_indices ∧
    ∀ i ∈ s.filtered_indices,
      i < s.log_buffer.length ∧ containsSub (s.log_buffer.getD i []) t = true

/-- The logical key events the byte decoder can emit (src/keyboard.rs). -/
inductive KeyEvt where
  | up
  | down
  | pageUp
  | pageDown
  | charKey (c : Char)
  | escKey
  | ctrlC
deriving Repr, DecidableEq

/-- The byte loop of `spawn_keyboard_reader` (src/keyboard.rs:37-151) on a whole byte
stream: the events sent, in order.  A failing `read_exact` is the end of the list; the
loop then exits without sending anything further. -/
def decodeKeys : List Nat → List KeyEvt
  | [] => []
  | b :: rest =>
    if b = 0x1b then
      match rest with
      | [] => []
      | b2 :: rest2 =>
        if b2 = 0x5b then
          match rest2 with
          | [] => []
          | b3 :: rest3 =>
            if b3 = 0x41 then KeyEvt.up :: decodeKeys rest3
            else if b3 = 0x42 then KeyEvt.down :: decodeKeys rest3
            else if b3 = 0x35 then
              match rest3 with
              | [] => []
              | b4 :: rest4 =>
                if b4 = 0x7e then KeyEvt.pageUp :: decodeKeys rest4 else decodeKeys rest4
            else if b3 = 0x36 then
              match rest3 with
              | [] => []
              | b4 :: rest4 =>
                if b4 = 0x7e then KeyEvt.pageDown :: decodeKeys rest4 else decodeKeys rest4
            else decodeKeys rest3
        else decodeKeys rest2
    else
      (match b with
       | 0x71 | 0x51 => [KeyEvt.charKey 'q']
       | 0x61 | 0x41 => [KeyEvt.charKey 'a']
       | 0x66 | 0x46 => [KeyEvt.charKey 'f']
       | 0x63 | 0x43 => [KeyEvt.charKey 'c']
       | 27 => [KeyEvt.escKey]
       | 3 => [KeyEvt.ctrlC]
       | _ => []) ++ decodeKeys rest

/-- The line `aa`. -/
def aaL : Line := ['a', 'a']

/-- The line `bb`. -/
def bbL : Line := ['b', 'b']

/-- A sequence of `add_log` calls, oldest first. -/
def appendAll (s : AppState) (ls : List Line) : AppState := ls.foldl AppState.add_log s

/-- Append `aa` 2000 times, select line 0 (filter token `aa`, every line matches), then
append `aa` once more, forcing an eviction. -/
def mkC2state : AppState :=
  ((appendAll scryInit (List.replicate 2000 aaL)).select_line 0).add_log aaL

/-- Append `aa`, then `bb` 1999 times, select line 0 (filter token `aa`, whose only
match is index 0), then append `bb` once more, evicting the only match. -/
def mkC4state : AppState :=
  ((appendAll scryInit (aaL :: List.replicate 1999 bbL)).select_line 0).add_log bbL

/-- A full buffer with live selection, filter and scroll, for exercising eviction. -/
def fullState : AppState :=
  { log_buffer := List.replicate 2000 aaL, scroll_offset := 1,
    selected_index := some 5, filter_text := some aaL, filtered_indices := [0, 7] }

/-- A one-line buffer whose line is `ab cd`. -/
def oneLineState : AppState :=
  { log_buffer := [['a', 'b', ' ', 'c', 'd']], scroll_offset := 3,
    selected_index := none, filter_text := none, filtered_indices := [] }

/-- A one-line buffer whose line is `ab`. -/
def abState : AppState :=
  { log_buffer := [['a', 'b']], scroll_offset := 0,
    selected_index := none, filter_text := none, filtered_indices := [] }

/-- Every word produced by `wordsAux cs acc` is a contiguous substring of
`acc.reverse ++ cs`. -/
theorem wordsAux_infix (cs : List Char) :
    ∀ (acc : List Char) (w : Line), w ∈ wordsAux cs acc → w <:+: acc.reverse ++ cs := by
  induction cs with
  | nil =>
    intro acc w hw
    rw [wordsAux] at hw
    split at hw
    · simp at hw
    · simp only [List.mem_singleton] at hw
      subst hw
      simp
  | cons c cs ih =>
    intro acc w hw
    rw [wordsAux] at hw
    have htail : cs <:+: acc.reverse ++ c :: cs :=
      ((List.suffix_cons c cs).trans (List.suffix_append acc.reverse (c :: cs))).isInfix
    by_cases hws : c.isWhitespace
    · rw [if_pos hws] at hw
      by_cases hacc : acc = []
      · rw [if_pos hacc] at hw
        have h := ih [] w hw
        simp only [List.reverse_nil, List.nil_append] at h
        exact h.trans htail
      · rw [if_neg hacc] at hw
        rcases List.mem_cons.mp hw with h | h
        · subst h
          exact (List.prefix_append acc.reverse (c :: cs)).isInfix
        · have h2 := ih [] w h
          simp only [List.reverse_nil, List.nil_append] at h2
          exact h2.trans htail
    · rw [if_neg hws] at hw
      have h := ih (c :: acc) w hw
      rw [List.reverse_cons, List.append_assoc, List.singleton_append] at h
      exact h

/-- Every word of `splitWhitespace l` is a contiguous substring of `l`. -/
theorem splitWhitespace_infix {l w : Line} (h : w ∈ splitWhitespace l) : w <:+: l := by
  have h2 := wordsAux_infix l [] w h
  simpa using h2

/-- A token produced by strategy 1 is non-empty and a substring of the line. -/
theorem quoteStrategy_some {line v : Line} (h : quoteStrategy line = some v) :
    v ≠ [] ∧ v <:+: line := by
  unfold quoteStrategy at h
  split at h
  · exact absurd h (by simp)
  · rename_i q rest hd
    dsimp only at h
    split at h
    · split at h
      · rename_i hcond
        have hv : rest.takeWhile (fun c => c ≠ '"') = v := Option.some.inj h
        constructor
        · rw [← hv]
          exact hcond.1
        · have h1 : v <+: rest := by
            rw [← hv]
            exact List.takeWhile_prefix _
          have h2 : q :: rest <:+ line := by
            rw [← hd]
            exact List.dropWhile_suffix _
          have h3 : rest <:+ line := (List.suffix_cons q rest).trans h2
          exact h1.isInfix.trans h3.isInfix
      · exact absurd h (by simp)
    · exact absurd h (by simp)

/-- A token produced by strategy 2 is non-empty and a substring of the line. -/
theorem eqStrategy_some {line v : Line} (h : eqStrategy line = some v) :
    v ≠ [] ∧ v <:+: line := by
  unfold eqStrategy at h
  dsimp only at h
  split at h
  · split at h
    · rename_i hcond
      have hv := Option.some.inj h
      constructor
      · rw [← hv]
        exact hcond.1
      · have h1 := List.takeWhile_prefix
          (l := (line.drop ((line.takeWhile (fun c => c ≠ '=')).length + 1)).dropWhile
            (fun c => c.isWhitespace)) (fun c => !c.isWhitespace)
        have h2 := List.dropWhile_suffix
          (l := line.drop ((line.takeWhile (fun c => c ≠ '=')).length + 1))
          (fun c => c.isWhitespace)
        have h3 := List.drop_suffix ((line.takeWhile (fun c => c ≠ '=')).length + 1) line
        rw [← hv]
        exact h1.isInfix.trans ((h2.trans h3).isInfix)
    · exact absurd h (by simp)
  · exact absurd h (by simp)

/-- A token produced by strategy 3 is non-empty and a substring of the line. -/
theorem wordStrategy_some {line v : Line} (h : wordStrategy line = some v) :
    v ≠ [] ∧ v <:+: line := by
  unfold wordStrategy at h
  dsimp only at h
  split at h
  · rename_i word hword
    split at h
    · rename_i hlen
      have hv := Option.some.inj h
      constructor
      · rw [← hv]
        intro hnil
        rw [hnil] at hlen
        simp at hlen
      · have hmem := List.mem_of_mem_head? (l := (splitWhitespace line).filter
          (fun w => w.any (fun c => c.isAlphanum) && decide (2 ≤ w.length))) (by rw [hword]; rfl)
        have hmem2 := List.mem_of_mem_filter hmem
        have hinf := splitWhitespace_infix hmem2
        have hp : word.takeWhile isWordChar <+: word := List.takeWhile_prefix _
        rw [← hv]
        exact hp.isInfix.trans hinf
    · exact absurd h (by simp)
  · exact absurd h (by simp)

/-- Any token the extractor yields is non-empty and a substring of the line. -/
theorem extract_filter_text_some {line t : Line} (h : extract_filter_text line = some t) :
    t ≠ [] ∧ t <:+: line := by
  unfold extract_filter_text at h
  cases hq : quoteStrategy line with
  | some v =>
    rw [hq] at h
    exact (Option.some.inj h) ▸ quoteStrategy_some hq
  | none =>
    rw [hq] at h
    cases he : eqStrategy line with
    | some v =>
      rw [he] at h
      exact (Option.some.inj h) ▸ eqStrategy_some he
    | none =>
      rw [he] at h
      exact wordStrategy_some h

theorem getD_concat (l : List Line) (a : Line) : (l ++ [a]).getD l.length [] = a := by
  rw [List.getD_eq_getElem?_getD, List.getElem?_concat_length]
  rfl

theorem getD_append_left (l : List Line) (a : Line) {i : Nat} (h : i < l.length) :
    (l ++ [a]).getD i [] = l.getD i [] := by
  rw [List.getD_eq_getElem?_getD, List.getD_eq_getElem?_getD, List.getElem?_append_left h]

theorem getD_drop_one (l : List Line) (i : Nat) :
    (l.drop 1).getD i [] = l.getD (1 + i) [] := by
  rw [List.getD_eq_getElem?_getD, List.getD_eq_getElem?_getD, List.getElem?_drop]

/-- The filter-and-renumber scan of `update_filter`, re-indexed from `k`, agrees with
filtering the index range directly. -/
theorem enumFrom_filterMap_range' (t : Line) (buf : List Line) :
    ∀ k : Nat,
      (buf.enumFrom k).filterMap (fun p => if containsSub p.2 t then some p.1 else none) =
        (List.range' k buf.length).filter (fun j => containsSub (buf.getD (j - k) []) t) := by
  induction buf with
  | nil => intro k; simp
  | cons b buf ih =>
    intro k
    rw [List.enumFrom_cons, List.filterMap_cons]
    have hrange : List.range' k (b :: buf).length = k :: List.range' (k + 1) buf.length := by
      rw [List.length_cons, List.range'_succ]
    rw [hrange, List.filter_cons]
    have hk : (b :: buf).getD (k - k) [] = b := by
      simp [Nat.sub_self]
    have htail :
        (List.range' (k + 1) buf.length).filter
            (fun j => containsSub ((b :: buf).getD (j - k) []) t) =
          (List.range' (k + 1) buf.length).filter
            (fun j => containsSub (buf.getD (j - (k + 1)) []) t) := by
      refine List.filter_congr ?_
      intro j hj
      have hj2 := (List.mem_range'_1.mp hj).1
      have hj3 : j - k = (j - (k + 1)) + 1 := by omega
      rw [hj3]
      simp [List.getD_cons_succ]
    rw [hk, htail]
    cases hcs : containsSub b t <;> simp [hcs, ih]

/-- The buffer scan of `update_filter` computes exactly the spec's match list. -/
theorem enum_filterMap_eq_spec (buf : List Line) (t : Line) :
    buf.enum.filterMap (fun p => if containsSub p.2 t then some p.1 else none) =
      specMatchingIndices buf t := by
  rw [List.enum_eq_enumFrom, enumFrom_filterMap_range' t buf 0, specMatchingIndices,
    List.range_eq_range']
  refine List.filter_congr ?_
  intro j hj
  simp

theorem update_filter_some {s : AppState} {t : Line} (h : s.filter_text = some t)
    (ht : t ≠ []) :
    s.update_filter =
      { s with
        filtered_indices := specMatchingIndices s.log_buffer t,
        scroll_offset := 0 } := by
  unfold AppState.update_filter
  split
  · rename_i filter heq
    rw [h] at heq
    have hft : t = filter := Option.some.inj heq
    subst hft
    rw [if_neg ht, enum_filterMap_eq_spec]
  · rename_i heq
    rw [h] at heq
    exact absurd heq (by simp)

theorem update_filter_none {s : AppState} (h : s.filter_text = none) :
    s.update_filter = { s with filtered_indices := [] } := by
  unfold AppState.update_filter
  split
  · rename_i filter heq
    rw [h] at heq
    exact absurd heq (by simp)
  · rfl

theorem select_line_in_range_some {s : AppState} {i : Nat} {t : Line}
    (h : i < s.log_buffer.length)
    (hx : extract_filter_text (s.log_buffer.getD i []) = some t) :
    s.select_line i =
      { s with
        selected_index := some i, filter_text := some t,
        filtered_indices := specMatchingIndices s.log_buffer t, scroll_offset := 0 } := by
  unfold AppState.select_line
  rw [if_pos h]
  dsimp only
  have ht := (extract_filter_text_some hx).1
  rw [update_filter_some
    (s := { s with
      selected_index := some i,
      filter_text := extract_filter_text (s.log_buffer.getD i []) })
    (t := t) hx ht]
  rw [hx]

theorem select_line_in_range_none {s : AppState} {i : Nat}
    (h : i < s.log_buffer.length)
    (hx : extract_filter_text (s.log_buffer.getD i []) = none) :
    s.select_line i =
      { s with
        selected_index := some i, filter_text := none,
        filtered_indices := [] } := by
  unfold AppState.select_line
  rw [if_pos h]
  dsimp only
  rw [update_filter_none
    (s := { s with
      selected_index := some i,
      filter_text := extract_filter_text (s.log_buffer.getD i []) })
    hx]
  rw [hx]

/-- `add_log` in the eviction case, written out field by field. -/
theorem add_log_evict {s : AppState} (line : Line)
    (h : (s.log_buffer ++ [line]).length > 2000) :
    s.add_log line =
      { log_buffer := (s.log_buffer ++ [line]).drop 1,
        scroll_offset := s.scroll_offset - 1,
        selected_index :=
          match s.selected_index with
          | some k => if k = 0 then none else some (k - 1)
          | none => none,
        filter_text := s.filter_text,
        filtered_indices :=
          (s.filtered_indices.filter (fun idx => idx ≠ 0)).map (fun idx => idx - 1) } := by
  unfold AppState.add_log
  dsimp only
  rw [if_pos h]
  have hscroll :
      (if s.scroll_offset > 0 then s.scroll_offset - 1 else s.scroll_offset) =
        s.scroll_offset - 1 := by
    split <;> omega
  have hfiltered :
      (if s.filtered_indices ≠ [] then
          (s.filtered_indices.filter (fun idx => idx ≠ 0)).map (fun idx => idx - 1)
        else s.filtered_indices) =
        (s.filtered_indices.filter (fun idx => idx ≠ 0)).map (fun idx => idx - 1) := by
    split
    · rfl
    · rename_i hfe
      rw [not_not] at hfe
      rw [hfe]
      rfl
  rw [hscroll, hfiltered]

/-- `add_log` in the no-eviction case, written out field by field. -/
theorem add_log_keep {s : AppState} (line : Line)
    (h : ¬ (s.log_buffer ++ [line]).length > 2000) :
    s.add_log line =
      { s with
        log_buffer := s.log_buffer ++ [line],
        filtered_indices :=
          match s.filter_text with
          | some filter =>
            if filter ≠ [] ∧ containsSub line filter then
              s.filtered_indices ++ [s.log_buffer.length]
            else s.filtered_indices
          | none => s.filtered_indices } := by
  unfold AppState.add_log
  dsimp only
  rw [if_neg h, getD_concat]

theorem filterInv_init : FilterInv scryInit := by
  constructor
  · intro
    rfl
  · intro t ht
    exact absurd ht (by simp [scryInit])

theorem filterInv_scroll_up {s : AppState} (a : Nat) (h : FilterInv s) :
    FilterInv (s.scroll_up a) := by
  unfold AppState.scroll_up
  split
  · exact h
  · exact h

theorem filterInv_scroll_down {s : AppState} (a m : Nat) (h : FilterInv s) :
    FilterInv (s.scroll_down a m) := by
  unfold AppState.scroll_down
  dsimp only
  split
  · exact h
  · exact h

theorem filterInv_clear {s : AppState} (_ : FilterInv s) : FilterInv s.clear_selection := by
  constructor
  · intro
    rfl
  · intro t ht
    exact absurd ht (by simp [AppState.clear_selection])

theorem filterInv_select {s : AppState} (i : Nat) (h : FilterInv s) :
    FilterInv (s.select_line i) := by
  by_cases hi : i < s.log_buffer.length
  · cases hx : extract_filter_text (s.log_buffer.getD i []) with
    | none =>
      rw [select_line_in_range_none hi hx]
      constructor
      · intro
        rfl
      · intro t ht
        exact absurd ht (by simp)
    | some t =>
      rw [select_line_in_range_some hi hx]
      constructor
      · intro hn
        exact absurd hn (by simp)
      · intro t2 ht2
        have ht2' : t = t2 := Option.some.inj ht2
        subst ht2'
        refine ⟨(extract_filter_text_some hx).1, ?_, ?_⟩
        · exact (List.pairwise_lt_range _).filter _
        · intro j hj
          have hj2 := List.mem_filter.mp hj
          exact ⟨List.mem_range.mp hj2.1, by simpa using hj2.2⟩
  · have hs : s.select_line i = s := by
      unfold AppState.select_line
      rw [if_neg hi]
    rw [hs]
    exact h

theorem filterInv_add_log {s : AppState} (line : Line) (h : FilterInv s) :
    FilterInv (s.add_log line) := by
  by_cases hlen : (s.log_buffer ++ [line]).length > 2000
  · rw [add_log_evict line hlen]
    constructor
    · intro hft
      dsimp only at hft ⊢
      rw [h.1 hft]
      rfl
    · intro t ht
      dsimp only at ht ⊢
      obtain ⟨htne, hpw, hmem⟩ := h.2 t ht
      refine ⟨htne, ?_, ?_⟩
      · rw [List.pairwise_map]
        refine (hpw.filter _).imp_of_mem ?_
        intro a b ha _ hab
        have ha0 : a ≠ 0 := by simpa using (List.mem_filter.mp ha).2
        omega
      · intro j hj
        rcases List.mem_map.mp hj with ⟨i0, hi0, hij⟩
        have hi0' := List.mem_filter.mp hi0
        have hne0 : i0 ≠ 0 := by simpa using hi0'.2
        obtain ⟨hbound, hcont⟩ := hmem i0 hi0'.1
        subst hij
        constructor
        · simp only [List.length_drop, List.length_append, List.length_singleton]
          omega
        · rw [getD_drop_one]
          have h1 : 1 + (i0 - 1) = i0 := by omega
          rw [h1, getD_append_left _ _ hbound]
          exact hcont
  · rw [add_log_keep line hlen]
    constructor
    · intro hft
      dsimp only at hft ⊢
      rw [hft]
      exact h.1 hft
    · intro t ht
      dsimp only at ht ⊢
      obtain ⟨htne, hpw, hmem⟩ := h.2 t ht
      rw [ht]
      refine ⟨htne, ?_, ?_⟩
      · dsimp only
        split
        · rw [List.pairwise_append]
          refine ⟨hpw, by simp, ?_⟩
          intro a ha b hb
          have hb' : b = s.log_buffer.length := by simpa using hb
          have := (hmem a ha).1
          omega
        · exact hpw
      · intro j hj
        dsimp only at hj
        split at hj
        · rcases List.mem_append.mp hj with hjf | hjn
          · obtain ⟨hbound, hcont⟩ := hmem j hjf
            constructor
            · simp only [List.length_append, List.length_singleton]
              omega
            · rw [getD_append_left _ _ hbound]
              exact hcont
          · have hj' : j = s.log_buffer.length := by simpa using hjn
            subst hj'
            rename_i hcond
            constructor
            · simp
            · rw [getD_concat]
              exact hcond.2
        · obtain ⟨hbound, hcont⟩ := hmem j hj
          constructor
          · simp only [List.length_append, List.length_singleton]
            omega
          · rw [getD_append_left _ _ hbound]
            exact hcont

theorem reachable_appendAll {s : AppState} (h : Reachable s) :
    ∀ ls : List Line, Reachable (appendAll s ls) := by
  intro ls
  induction ls generalizing s with
  | nil => exact h
  | cons a ls ih => exact ih (Reachable.add_log a h)

/-- With no filter set and room left, a run of appends just extends the buffer. -/
theorem appendAll_no_filter :
    ∀ (ls : List Line) (s : AppState), s.filter_text = none → s.filtered_indices = [] →
      s.log_buffer.length + ls.length ≤ 2000 →
      appendAll s ls = { s with log_buffer := s.log_buffer ++ ls } := by
  intro ls
  induction ls with
  | nil =>
    intro s _ _ _
    show s = _
    simp
  | cons a ls ih =>
    intro s h1 h2 h3
    have hlen : ¬ (s.log_buffer ++ [a]).length > 2000 := by
      simp only [List.length_append, List.length_cons, List.length_nil] at h3 ⊢
      omega
    show appendAll (s.add_log a) ls = _
    rw [add_log_keep a hlen, h1]
    dsimp only
    have hstep := ih
      { log_buffer := s.log_buffer ++ [a], scroll_offset := s.scroll_offset,
        selected_index := s.selected_index, filter_text := none,
        filtered_indices := s.filtered_indices }
      rfl h2 (by simp only [List.length_append, List.length_cons,
        List.length_nil] at h3 ⊢; omega)
    rw [hstep]
    simp

theorem getD_replicate {n i : Nat} (a : Line) (h : i < n) :
    (List.replicate n a).getD i [] = a := by
  rw [List.getD_eq_getElem?_getD, List.getElem?_eq_getElem (by simpa using h),
    List.getElem_replicate]
  rfl

theorem specMatchingIndices_replicate_pos {a t : Line} (n : Nat)
    (h : containsSub a t = true) :
    specMatchingIndices (List.replicate n a) t = List.range n := by
  unfold specMatchingIndices
  rw [List.length_replicate]
  refine List.filter_eq_self.mpr ?_
  intro j hj
  rw [getD_replicate a (List.mem_range.mp hj)]
  exact h

theorem specMatchingIndices_c4base :
    specMatchingIndices (aaL :: List.replicate 1999 bbL) aaL = [0] := by
  unfold specMatchingIndices
  have hlen : (aaL :: List.replicate 1999 bbL).length = 2000 := by
    rw [List.length_cons, List.length_replicate]
  rw [hlen]
  have h2000 : List.range 2000 = 0 :: List.range' 1 1999 := by
    rw [List.range_eq_range']
    rw [show (2000 : Nat) = 1999 + 1 from rfl, List.range'_succ]
  rw [h2000, List.filter_cons]
  have hp0 : containsSub ((aaL :: List.replicate 1999 bbL).getD 0 []) aaL = true := by
    rw [List.getD_cons_zero]
    decide
  have hrest : (List.range' 1 1999).filter
      (fun j => containsSub ((aaL :: List.replicate 1999 bbL).getD j []) aaL) = [] := by
    rw [List.filter_eq_nil_iff]
    intro j hj
    have hj1 := List.mem_range'_1.mp hj
    obtain ⟨m, rfl⟩ : ∃ m, j = m + 1 := ⟨j - 1, by omega⟩
    rw [List.getD_cons_succ, getD_replicate bbL (by omega)]
    decide
  rw [hrest, if_pos hp0]

theorem range'_map_pred (n : Nat) :
    ∀ k, (List.range' (k + 1) n).map (fun i => i - 1) = List.range' k n := by
  induction n with
  | zero => intro k; rfl
  | succ n ih =>
    intro k
    rw [List.range'_succ, List.map_cons, ih (k + 1)]
    rw [show List.range' k (n + 1) = k :: List.range' (k + 1) n from List.range'_succ k n 1]
    simp

theorem range_succ_filter_map (n : Nat) :
    ((List.range (n + 1)).filter (fun idx => idx ≠ 0)).map (fun idx => idx - 1) =
      List.range n := by
  rw [List.range_eq_range', List.range'_succ, List.filter_cons]
  have h1 : (List.range' 1 n).filter (fun idx => idx ≠ 0) = List.range' 1 n := by
    refine List.filter_eq_self.mpr ?_
    intro a ha
    have ha1 := (List.mem_range'_1.mp ha).1
    simp
    omega
  simp only [decide_eq_true_eq]
  rw [if_neg (by omega), h1]
  have h2 := range'_map_pred n 0
  simp only [Nat.zero_add] at h2
  rw [h2, ← List.range_eq_range']

/-- The indexed pairs of `enumFrom` as a map over the index range. -/
theorem enumFrom_eq_range'_map (buf : List Line) :
    ∀ k, buf.enumFrom k =
      (List.range' k buf.length).map (fun j => (j, buf.getD (j - k) [])) := by
  induction buf with
  | nil => intro k; rfl
  | cons b buf ih =>
    intro k
    rw [List.enumFrom_cons, show (b :: buf).length = buf.length + 1 from rfl,
      List.range'_succ, List.map_cons, ih (k + 1)]
    congr 1
    · simp [Nat.sub_self]
    · refine List.map_congr_left ?_
      intro j hj
      have hj1 := (List.mem_range'_1.mp hj).1
      have hd : j - k = (j - (k + 1)) + 1 := by omega
      rw [hd, List.getD_cons_succ]

theorem enum_eq_range_map (buf : List Line) :
    buf.enum = (List.range buf.length).map (fun j => (j, buf.getD j [])) := by
  rw [List.enum_eq_enumFrom, enumFrom_eq_range'_map buf 0, List.range_eq_range']
  refine List.map_congr_left ?_
  intro j hj
  simp

theorem c2_base :
    appendAll scryInit (List.replicate 2000 aaL) =
      { scryInit with log_buffer := List.replicate 2000 aaL } := by
  have h := appendAll_no_filter (List.replicate 2000 aaL) scryInit rfl rfl
    (by rw [show scryInit.log_buffer = [] from rfl, List.length_nil, List.length_replicate])
  rw [h, show scryInit.log_buffer = [] from rfl, List.nil_append]

theorem c2_selected :
    (appendAll scryInit (List.replicate 2000 aaL)).select_line 0 =
      { log_buffer := List.replicate 2000 aaL, scroll_offset := 0,
        selected_index := some 0, filter_text := some aaL,
        filtered_indices := List.range 2000 } := by
  rw [c2_base]
  have hproj : ({ scryInit with log_buffer := List.replicate 2000 aaL } : AppState).log_buffer
      = List.replicate 2000 aaL := rfl
  have hlen : ({ scryInit with
      log_buffer := List.replicate 2000 aaL } : AppState).log_buffer.length = 2000 := by
    rw [hproj, List.length_replicate]
  have hx : extract_filter_text
      (({ scryInit with
        log_buffer := List.replicate 2000 aaL } : AppState).log_buffer.getD 0 []) =
        some aaL := by
    rw [hproj, getD_replicate aaL (by omega)]
    decide
  rw [select_line_in_range_some (by rw [hlen]; omega) hx, hproj,
    specMatchingIndices_replicate_pos 2000 (by decide)]

theorem mkC2state_eq :
    mkC2state =
      { log_buffer := List.replicate 2000 aaL, scroll_offset := 0,
        selected_index := none, filter_text := some aaL,
        filtered_indices := List.range 1999 } := by
  unfold mkC2state
  rw [c2_selected]
  have hlen : ((List.replicate 2000 aaL : List Line) ++ [aaL]).length > 2000 := by
    rw [List.length_append, List.length_replicate, List.length_cons, List.length_nil]
    omega
  rw [add_log_evict aaL hlen]
  dsimp only
  have hbuf : ((List.replicate 2000 aaL : List Line) ++ [aaL]).drop 1 =
      List.replicate 2000 aaL := by
    rw [← List.replicate_succ' 2000 aaL, List.replicate_succ]
    rfl
  have hfil := range_succ_filter_map 1999
  rw [show (1999 : Nat) + 1 = 2000 from rfl] at hfil
  rw [hbuf, hfil]
  rfl

theorem c4_base :
    appendAll scryInit (aaL :: List.replicate 1999 bbL) =
      { scryInit with log_buffer := aaL :: List.replicate 1999 bbL } := by
  have h := appendAll_no_filter (aaL :: List.replicate 1999 bbL) scryInit rfl rfl
    (by rw [show scryInit.log_buffer = [] from rfl, List.length_nil, List.length_cons,
      List.length_replicate])
  rw [h, show scryInit.log_buffer = [] from rfl, List.nil_append]

theorem c4_selected :
    (appendAll scryInit (aaL :: List.replicate 1999 bbL)).select_line 0 =
      { log_buffer := aaL :: List.replicate 1999 bbL, scroll_offset := 0,
        selected_index := some 0, filter_text := some aaL,
        filtered_indices := [0] } := by
  rw [c4_base]
  have hproj : ({ scryInit with
      log_buffer := aaL :: List.replicate 1999 bbL } : AppState).log_buffer
      = aaL :: List.replicate 1999 bbL := rfl
  have hlen : ({ scryInit with
      log_buffer := aaL :: List.replicate 1999 bbL } : AppState).log_buffer.length = 2000 := by
    rw [hproj, List.length_cons, List.length_replicate]
  have hx : extract_filter_text
      (({ scryInit with
        log_buffer := aaL :: List.replicate 1999 bbL } : AppState).log_buffer.getD 0 []) =
        some aaL := by
    rw [hproj, List.getD_cons_zero]
    decide
  rw [select_line_in_range_some (by rw [hlen]; omega) hx, hproj, specMatchingIndices_c4base]

theorem mkC4state_eq :
    mkC4state =
      { log_buffer := List.replicate 2000 bbL, scroll_offset := 0,
        selected_index := none, filter_text := some aaL,
        filtered_indices := [] } := by
  unfold mkC4state
  rw [c4_selected]
  have hlen : ((aaL :: List.replicate 1999 bbL : List Line) ++ [bbL]).length > 2000 := by
    rw [List.cons_append, List.length_cons, List.length_append, List.length_replicate,
      List.length_cons, List.length_nil]
    omega
  rw [add_log_evict bbL hlen]
  dsimp only
  have hbuf : ((aaL :: List.replicate 1999 bbL : List Line) ++ [bbL]).drop 1 =
      List.replicate 2000 bbL := by
    rw [List.cons_append]
    show List.replicate 1999 bbL ++ [bbL] = _
    rw [← List.replicate_succ' 1999 bbL]
  rw [hbuf]
  rfl

/-- C1: Starting from any engine state holding at most 2000 lines, `add_log` keeps the
buffer length at most the capacity 2000; an append below capacity only pushes the line;
an append to a full buffer evicts exactly the oldest element (index 0), removes every
index 0 from `filtered_indices` and decrements every other index by one, clears a
selection equal to 0 and decrements a larger one by one, and decrements the scroll
offset by one when it was greater than zero. -/
theorem c1_capacity_and_eviction (s : AppState) (line : Line)
    (h : s.log_buffer.length ≤ 2000) :
    (s.add_log line).log_buffer.length ≤ 2000 ∧
    (s.log_buffer.length < 2000 → (s.add_log line).log_buffer = s.log_buffer ++ [line]) ∧
    (s.log_buffer.length = 2000 →
      (s.add_log line).log_buffer = s.log_buffer.tail ++ [line] ∧
      (s.add_log line).filtered_indices =
        (s.filtered_indices.filter (fun idx => idx ≠ 0)).map (fun idx => idx - 1) ∧
      (s.add_log line).selected_index =
        (match s.selected_index with
         | some k => if k = 0 then none else some (k - 1)
         | none => none) ∧
      (s.add_log line).scroll_offset = s.scroll_offset - 1) := by
  by_cases he : s.log_buffer.length = 2000
  · have hlen : (s.log_buffer ++ [line]).length > 2000 := by
      rw [List.length_append, List.length_cons, List.length_nil]
      omega
    rw [add_log_evict line hlen]
    dsimp only
    refine ⟨?_, fun hlt => absurd he (by omega), fun _ => ⟨?_, rfl, rfl, rfl⟩⟩
    · rw [List.length_drop, List.length_append, List.length_cons, List.length_nil]
      omega
    · cases hb : s.log_buffer with
      | nil =>
        rw [hb] at he
        simp at he
      | cons x xs =>
        rfl
  · have hlen : ¬ (s.log_buffer ++ [line]).length > 2000 := by
      rw [List.length_append, List.length_cons, List.length_nil]
      omega
    rw [add_log_keep line hlen]
    dsimp only
    refine ⟨?_, fun _ => rfl, fun habs => absurd habs he⟩
    rw [List.length_append, List.length_cons, List.length_nil]
    omega

/-- Witness for C1 at a full buffer with live filter, selection and scroll. -/
theorem c1_witness :
    fullState.log_buffer.length ≤ 2000 ∧
    ((fullState.add_log bbL).log_buffer.length ≤ 2000 ∧
     (fullState.log_buffer.length < 2000 →
       (fullState.add_log bbL).log_buffer = fullState.log_buffer ++ [bbL]) ∧
     (fullState.log_buffer.length = 2000 →
       (fullState.add_log bbL).log_buffer = fullState.log_buffer.tail ++ [bbL] ∧
       (fullState.add_log bbL).filtered_indices =
         (fullState.filtered_indices.filter (fun idx => idx ≠ 0)).map (fun idx => idx - 1) ∧
       (fullState.add_log bbL).selected_index =
         (match fullState.selected_index with
          | some k => if k = 0 then none else some (k - 1)
          | none => none) ∧
       (fullState.add_log bbL).scroll_offset = fullState.scroll_offset - 1)) :=
  ⟨by rw [show fullState.log_buffer = List.replicate 2000 aaL from rfl,
      List.length_replicate],
   c1_capacity_and_eviction fullState bbL
     (by rw [show fullState.log_buffer = List.replicate 2000 aaL from rfl,
       List.length_replicate])⟩

/-- C2 (amended): in every reachable engine state, `filtered_indices` is empty when no
filter token is set; when a token is set, the token is non-empty and `filtered_indices`
is a strictly ascending list of in-range indices whose lines all contain the token.
(Exactness fails after an eviction appends a matching line; see the counterexample.) -/
theorem c2_filter_invariant_amended : ∀ s : AppState, Reachable s → FilterInv s := by
  intro s h
  induction h with
  | init => exact filterInv_init
  | add_log line _ ih => exact filterInv_add_log line ih
  | select_line i _ ih => exact filterInv_select i ih
  | clear_selection _ ih => exact filterInv_clear ih
  | scroll_up a _ ih => exact filterInv_scroll_up a ih
  | scroll_down a m _ ih => exact filterInv_scroll_down a m ih

/-- Witness for C2 at a short reachable state with an active filter. -/
theorem c2_witness :
    Reachable ((scryInit.add_log ['a', 'b']).select_line 0) ∧
      FilterInv ((scryInit.add_log ['a', 'b']).select_line 0) :=
  ⟨Reachable.select_line 0 (Reachable.add_log _ Reachable.init),
   c2_filter_invariant_amended _
     (Reachable.select_line 0 (Reachable.add_log _ Reachable.init))⟩

/-- C2 counterexample: after 2000 appends of `aa`, selecting line 0 (token `aa`) and
appending one more matching `aa` (which evicts), the reachable state has the token set
but `filtered_indices` is `range 1999`, missing the matching final index 1999, while
the exact match list is `range 2000`. -/
theorem c2_counterexample :
    Reachable mkC2state ∧ mkC2state.filter_text = some aaL ∧
      mkC2state.filtered_indices ≠ specMatchingIndices mkC2state.log_buffer aaL := by
  refine ⟨?_, ?_, ?_⟩
  · exact Reachable.add_log aaL
      (Reachable.select_line 0 (reachable_appendAll Reachable.init _))
  · rw [mkC2state_eq]
  · rw [mkC2state_eq]
    dsimp only
    rw [specMatchingIndices_replicate_pos 2000 (by decide)]
    intro heq
    have hl := congrArg List.length heq
    rw [List.length_range, List.length_range] at hl
    omega

/-- C3: for an in-range index, `select_line` sets the selection, derives the filter
token from the selected line, and when a token is derived recomputes
`filtered_indices` as exactly the ascending list of all in-range indices whose line
contains the token, resetting the scroll to 0; with no derived token it clears the
match list. -/
theorem c3_select_rescan (s : AppState) (i : Nat) (h : i < s.log_buffer.length) :
    (s.select_line i).selected_index = some i ∧
    (s.select_line i).filter_text = extract_filter_text (s.log_buffer.getD i []) ∧
    (∀ t, extract_filter_text (s.log_buffer.getD i []) = some t →
      (s.select_line i).filtered_indices = specMatchingIndices s.log_buffer t ∧
      (s.select_line i).scroll_offset = 0) ∧
    (extract_filter_text (s.log_buffer.getD i []) = none →
      (s.select_line i).filtered_indices = []) := by
  cases hx : extract_filter_text (s.log_buffer.getD i []) with
  | none =>
    rw [select_line_in_range_none h hx]
    refine ⟨rfl, rfl, ?_, fun _ => rfl⟩
    intro t ht
    exact absurd ht (by simp)
  | some t0 =>
    rw [select_line_in_range_some h hx]
    refine ⟨rfl, rfl, ?_, ?_⟩
    · intro t ht
      have ht0 : t0 = t := Option.some.inj ht
      subst ht0
      exact ⟨rfl, rfl⟩
    · intro habs
      exact absurd habs (by simp)

/-- Witness for C3 at a one-line buffer whose line yields the token `ab`. -/
theorem c3_witness :
    0 < oneLineState.log_buffer.length ∧
    ((oneLineState.select_line 0).selected_index = some 0 ∧
     (oneLineState.select_line 0).filter_text =
       extract_filter_text (oneLineState.log_buffer.getD 0 []) ∧
     (∀ t, extract_filter_text (oneLineState.log_buffer.getD 0 []) = some t →
       (oneLineState.select_line 0).filtered_indices =
         specMatchingIndices oneLineState.log_buffer t ∧
       (oneLineState.select_line 0).scroll_offset = 0) ∧
     (extract_filter_text (oneLineState.log_buffer.getD 0 []) = none →
       (oneLineState.select_line 0).filtered_indices = [])) :=
  ⟨by decide, c3_select_rescan oneLineState 0 (by decide)⟩

/-- C4 (amended): the display pair of operations keys on `filtered_indices` being
non-empty, not on a filter token being set: `get_display_count` is the number of
displayed pairs; with matches present, `get_display_logs` is the ordered pairs
`(i, buffer[i])` over `matching_indices` and the count is their number; with no
matches, the whole buffer is displayed in order with the count `len()`, even when a
filter token is set. -/
theorem c4_display_window (s : AppState) :
    s.get_display_count = s.get_display_logs.length ∧
    (s.filtered_indices ≠ [] →
      s.get_display_logs =
        s.filtered_indices.map (fun idx => (idx, s.log_buffer.getD idx [])) ∧
      s.get_display_count = s.filtered_indices.length) ∧
    (s.filtered_indices = [] →
      s.get_display_logs =
        (List.range s.log_buffer.length).map (fun j => (j, s.log_buffer.getD j [])) ∧
      s.get_display_count = s.log_buffer.length) := by
  unfold AppState.get_display_count AppState.get_display_logs
  by_cases hf : s.filtered_indices ≠ []
  · rw [if_pos hf, if_pos hf]
    exact ⟨by rw [List.length_map], fun _ => ⟨rfl, rfl⟩, fun habs => absurd habs hf⟩
  · rw [if_neg hf, if_neg hf]
    refine ⟨?_, fun hcon => absurd hcon hf, fun _ => ⟨enum_eq_range_map _, rfl⟩⟩
    rw [List.enum_length]

/-- Witness for C4 at a one-line buffer with no matches. -/
theorem c4_witness :
    abState.filtered_indices = [] ∧
    (abState.get_display_logs =
      (List.range abState.log_buffer.length).map
        (fun j => (j, abState.log_buffer.getD j [])) ∧
     abState.get_display_count = abState.log_buffer.length) :=
  ⟨rfl, (c4_display_window abState).2.2 rfl⟩

/-- C4 counterexample: in the reachable state `mkC4state` a filter token is set while
`filtered_indices` is empty, and `get_display_count` returns the full buffer length
2000 rather than `matching_indices.len() = 0`; `get_display_logs` likewise returns the
whole buffer rather than the (empty) list of matching pairs. -/
theorem c4_counterexample :
    Reachable mkC4state ∧ mkC4state.filter_text = some aaL ∧
      mkC4state.get_display_count ≠ mkC4state.filtered_indices.length ∧
      mkC4state.get_display_logs ≠
        mkC4state.filtered_indices.map
          (fun idx => (idx, mkC4state.log_buffer.getD idx [])) := by
  refine ⟨?_, ?_, ?_, ?_⟩
  · exact Reachable.add_log bbL
      (Reachable.select_line 0 (reachable_appendAll Reachable.init _))
  · rw [mkC4state_eq]
  · rw [mkC4state_eq]
    unfold AppState.get_display_count
    dsimp only
    rw [if_neg (by simp), List.length_replicate, List.length_nil]
    omega
  · rw [mkC4state_eq]
    unfold AppState.get_display_logs
    dsimp only
    rw [if_neg (by simp), List.map_nil]
    intro heq
    have hl := congrArg List.length heq
    rw [List.enum_length, List.length_replicate, List.length_nil] at hl
    omega

/-- C5 (amended): `scroll_up` never increases the offset (so it preserves any upper
bound and never fails), and `scroll_down` preserves the bound
`offset < max display_count 1` whenever the starting offset already satisfies it.
(Starting from an offset at or beyond the bound, `scroll_down` leaves it unchanged
rather than clamping it down; see the counterexample.) -/
theorem c5_scroll_saturation (s : AppState) (amount dc : Nat) :
    (s.scroll_up amount).scroll_offset ≤ s.scroll_offset ∧
    (s.scroll_offset < max dc 1 →
      (s.scroll_down amount dc).scroll_offset < max dc 1) := by
  constructor
  · unfold AppState.scroll_up
    split
    · dsimp only
      omega
    · exact Nat.le_refl _
  · intro hlt
    unfold AppState.scroll_down
    dsimp only
    split
    · dsimp only
      omega
    · exact hlt

/-- Witness for C5 from the fresh state. -/
theorem c5_witness :
    scryInit.scroll_offset < max 3 1 ∧
    ((scryInit.scroll_up 1).scroll_offset ≤ scryInit.scroll_offset ∧
      (scryInit.scroll_down 1 3).scroll_offset < max 3 1) :=
  ⟨by decide,
   ⟨(c5_scroll_saturation scryInit 1 3).1,
    (c5_scroll_saturation scryInit 1 3).2 (by decide)⟩⟩

/-- C5 counterexample: reachable by `scroll_down 5 6` from the fresh state, the offset
5 is not clamped by a following `scroll_down 1 3`, ending at 5 ≥ max 3 1; the claim
"from any starting offset the result satisfies offset < max(display_count, 1)" fails. -/
theorem c5_counterexample :
    ((scryInit.scroll_down 5 6).scroll_down 1 3).scroll_offset = 5 ∧
      ¬ ((scryInit.scroll_down 5 6).scroll_down 1 3).scroll_offset < max 3 1 := by
  decide

/-- C6: `select_line` with an index at or beyond the buffer length is a no-op: the
whole state is returned unchanged. -/
theorem c6_select_out_of_range (s : AppState) (i : Nat) (h : s.log_buffer.length ≤ i) :
    s.select_line i = s := by
  unfold AppState.select_line
  rw [if_neg (by omega)]

/-- Witness for C6 on the empty fresh buffer. -/
theorem c6_witness : scryInit.log_buffer.length ≤ 3 ∧ scryInit.select_line 3 = scryInit :=
  ⟨by decide, c6_select_out_of_range scryInit 3 (by decide)⟩

/-- C7: evaluation of the decoder at the disputed inputs.  A `0x1B` followed by a
non-`[` byte (here `0x41`, which alone would be the key `a`) emits nothing and
swallows the follower, and a `0x1B` at end of stream emits nothing: the `27 =>` escape
arm of the plain-key match is unreachable, so no bare escape key event is ever
produced, contrary to the specified behaviour. -/
theorem c7_bare_escape_dropped :
    decodeKeys [0x1b, 0x41] = [] ∧ decodeKeys [0x1b] = [] ∧
      decodeKeys [0x41] = [KeyEvt.charKey 'a'] ∧
      decodeKeys [0x1b, 0x41] ≠ [KeyEvt.escKey] := by
  decide

/-- C8: the decoder turns `1B 5B 41` into exactly one arrow-up event, `1B 5B 35 7E`
into exactly one page-up event, and drops `1B 5B 39` (unrecognized third byte)
without any event. -/
theorem c8_decoder_sequences :
    decodeKeys [0x1b, 0x5b, 0x41] = [KeyEvt.up] ∧
    decodeKeys [0x1b, 0x5b, 0x35, 0x7e] = [KeyEvt.pageUp] ∧
    decodeKeys [0x1b, 0x5b, 0x39] = [] := by
  decide

/-- C9: the extractor tries its three strategies in fixed priority order with
first-match-wins; on `level=info msg="connection refused"` it returns the quoted value
`connection refused` (not `info`), and on `plain text here` it falls back to the first
alphanumeric word `plain`. -/
theorem c9_extractor_priority :
    (∀ line v, quoteStrategy line = some v → extract_filter_text line = some v) ∧
    (∀ line v, quoteStrategy line = none → eqStrategy line = some v →
      extract_filter_text line = some v) ∧
    (∀ line, quoteStrategy line = none → eqStrategy line = none →
      extract_filter_text line = wordStrategy line) ∧
    extract_filter_text (("level=info msg=\"connection refused\"").toList) =
      some (("connection refused").toList) ∧
    extract_filter_text (("plain text here").toList) = some (("plain").toList) := by
  refine ⟨?_, ?_, ?_, by decide, by decide⟩
  · intro line v hq
    unfold extract_filter_text
    rw [hq]
  · intro line v hq he
    unfold extract_filter_text
    rw [hq, he]
  · intro line hq he
    unfold extract_filter_text
    rw [hq, he]

/-- Witness for C9: the quote strategy fires on the log-style line, and the extractor
returns its value. -/
theorem c9_witness :
    quoteStrategy (("level=info msg=\"connection refused\"").toList) =
      some (("connection refused").toList) ∧
    extract_filter_text (("level=info msg=\"connection refused\"").toList) =
      some (("connection refused").toList) :=
  ⟨by decide, c9_extractor_priority.1 _ _ (by decide)⟩

/-- C10: every token the extractor yields is a non-empty contiguous substring of its
line; consequently, selecting an in-range line whose extraction yields a token always
puts the selected index itself into `filtered_indices`. -/
theorem c10_token_matches_own_line :
    (∀ line t, extract_filter_text line = some t → t ≠ [] ∧ t <:+: line) ∧
    (∀ (s : AppState) (i : Nat) (t : Line), i < s.log_buffer.length →
      extract_filter_text (s.log_buffer.getD i []) = some t →
      i ∈ (s.select_line i).filtered_indices) := by
  refine ⟨fun line t h => extract_filter_text_some h, ?_⟩
  intro s i t hi hx
  rw [select_line_in_range_some hi hx]
  dsimp only
  unfold specMatchingIndices
  rw [List.mem_filter]
  refine ⟨List.mem_range.mpr hi, ?_⟩
  show containsSub (s.log_buffer.getD i []) t = true
  unfold containsSub
  exact decide_eq_true (extract_filter_text_some hx).2

/-- Witness for C10 on a one-line buffer whose line is its own token. -/
theorem c10_witness :
    (0 < abState.log_buffer.length ∧
      extract_filter_text (abState.log_buffer.getD 0 []) = some ['a', 'b']) ∧
    (['a', 'b'] ≠ ([] : Line) ∧ (['a', 'b'] : Line) <:+: abState.log_buffer.getD 0 []) ∧
    0 ∈ (abState.select_line 0).filtered_indices :=
  ⟨⟨by decide, by decide⟩,
   c10_token_matches_own_line.1 _ _ (by decide),
   c10_token_matches_own_line.2 abState 0 ['a', 'b'] (by decide) (by decide)⟩
